import Mathlib

/-!
Verification development for the slogtext repository: a structured-log-record
encoder that renders a log record (time, level, message, source, attributes
nested in named groups) as one line of space-separated key=value text.

The definitions below are a shallow embedding of the Go source:

  - text_handler.go : needsQuoting, appendTextValue
  - the handler file (TextHandler, withAttrs, withGroup, handle,
    appendNonBuiltIns, handleState, openGroup, closeGroup, appendAttr,
    appendKey, appendSource, appendString, appendValue, appendError,
    appendTime, writeTimeRFC3339Millis)

Go byte strings are modelled as List Nat (one Nat per byte) where byte-level
UTF-8 decoding matters (the quoting predicate), and as List Char elsewhere
(the handler operates on whole strings; Lean chars are exactly the Unicode
scalar values a valid Go string decodes to).  Buffers are modelled as the
list of bytes/chars written so far; mutation becomes explicit state passing.

Parts of the repository that are not in the provided sources are modelled
from the spec and marked as such in their doc comments: the safeSet table,
the internal buffer package's WritePosInt/WritePosIntWidth, and the JSON
marshalling fallback (whose rendered output is carried inside the value).
Go standard library collaborators (unicode tables, utf8 decoding, strconv
quoting, slog.Level.String) are modelled faithfully where theorems evaluate
them; general theorems are parametric in their exact content.
-/

/-! ## Quoting engine, byte level (text_handler.go: needsQuoting) -/

/-- Modelled from the spec: the safeSet table is repository code not in the
provided sources (it mirrors the JSON safe-character table).  Per the spec,
a byte is unsafe when it is an ASCII control character (below 0x20), a
double quote, or a backslash; every other ASCII byte is safe. -/
def safeSet (b : Nat) : Bool :=
  !(b < 0x20 || b = 0x22 || b = 0x5C)

/-- Continuation-byte test of the Go utf8 package: 0x80 ≤ b ≤ 0xBF. -/
def contByte (b : Nat) : Bool :=
  0x80 ≤ b && b ≤ 0xBF

/-- Accept range for the second byte of a 3- or 4-byte UTF-8 sequence,
indexed by the first byte, as in the Go utf8 package's acceptRanges. -/
def acceptRange (b0 : Nat) : Nat × Nat :=
  if b0 = 0xE0 then (0xA0, 0xBF)
  else if b0 = 0xED then (0x80, 0x9F)
  else if b0 = 0xF0 then (0x90, 0xBF)
  else if b0 = 0xF4 then (0x80, 0x8F)
  else (0x80, 0xBF)

/-- Model of Go utf8.DecodeRuneInString on a byte list: returns the decoded
rune, the number of bytes consumed, and whether the bytes were a valid
encoding.  On any malformed prefix it returns (0xFFFD, 1, false), exactly
as Go returns (RuneError, 1); note that the valid three-byte encoding of
U+FFFD itself decodes to (0xFFFD, 3, true). -/
def decodeRuneV : List Nat → Nat × Nat × Bool
  | [] => (0xFFFD, 0, false)
  | b0 :: rest =>
    if b0 < 0x80 then (b0, 1, true)
    else if 0xC2 ≤ b0 && b0 ≤ 0xDF then
      match rest with
      | b1 :: _ =>
        if contByte b1 then ((b0 - 0xC0) * 64 + (b1 - 0x80), 2, true)
        else (0xFFFD, 1, false)
      | [] => (0xFFFD, 1, false)
    else if 0xE0 ≤ b0 && b0 ≤ 0xEF then
      match rest with
      | b1 :: b2 :: _ =>
        if (acceptRange b0).1 ≤ b1 && b1 ≤ (acceptRange b0).2 && contByte b2 then
          ((b0 - 0xE0) * 4096 + (b1 - 0x80) * 64 + (b2 - 0x80), 3, true)
        else (0xFFFD, 1, false)
      | _ => (0xFFFD, 1, false)
    else if 0xF0 ≤ b0 && b0 ≤ 0xF4 then
      match rest with
      | b1 :: b2 :: b3 :: _ =>
        if (acceptRange b0).1 ≤ b1 && b1 ≤ (acceptRange b0).2 && contByte b2 && contByte b3 then
          ((b0 - 0xF0) * 262144 + (b1 - 0x80) * 4096 + (b2 - 0x80) * 64 + (b3 - 0x80), 4, true)
        else (0xFFFD, 1, false)
      | _ => (0xFFFD, 1, false)
    else (0xFFFD, 1, false)

/-- Model of Go unicode.IsSpace: the Unicode White_Space property
(this finite list is the complete property). -/
def goIsSpace (r : Nat) : Bool :=
  r = 0x09 || r = 0x0A || r = 0x0B || r = 0x0C || r = 0x0D || r = 0x20 ||
  r = 0x85 || r = 0xA0 || r = 0x1680 || (0x2000 ≤ r && r ≤ 0x200A) ||
  r = 0x2028 || r = 0x2029 || r = 0x202F || r = 0x205F || r = 0x3000

/-- Model of Go unicode.IsPrint.  On the Latin-1 range this is exactly the
Go table: printable bytes are 0x20..0x7E and 0xA1..0xFF minus the soft
hyphen 0xAD.  Beyond Latin-1 the Go category tables are external to this
repository; the model is exact on every codepoint that a theorem below
evaluates (Greek letters, U+FFFD) and approximates elsewhere by treating
non-space codepoints as printable.  All general theorems in this file are
parametric in that choice: both sides of each equivalence use this same
classifier. -/
def goIsPrint (r : Nat) : Bool :=
  if r < 0x100 then
    (0x20 ≤ r && r ≤ 0x7E) || (0xA1 ≤ r && r ≤ 0xFF && !(r = 0xAD))
  else if r = 0xFFFD then true
  else if 0x391 ≤ r && r ≤ 0x3C9 then true
  else !(goIsSpace r)

/-- Embedding of the needsQuoting loop (text_handler.go).  Walks the byte
string; for an ASCII byte it quotes unless the byte is a backslash or is
safe and is neither space nor '='; for a non-ASCII position it decodes a
rune and quotes on RuneError, Unicode space, or a non-printable rune.
Each iteration consumes at least one byte, so the list length bounds the
number of iterations; the first argument is that bound (the wrapper
passes the length), which makes the definition structurally recursive
and kernel-evaluable. -/
def needsQuotingGo : Nat → List Nat → Bool
  | _, [] => false
  | 0, _ :: _ => false
  | n + 1, b :: rest =>
    if b < 0x80 then
      if !(b = 0x5C) && (b = 0x20 || b = 0x3D || !(safeSet b)) then true
      else needsQuotingGo n rest
    else
      if (decodeRuneV (b :: rest)).1 = 0xFFFD || goIsSpace (decodeRuneV (b :: rest)).1 ||
          !(goIsPrint (decodeRuneV (b :: rest)).1) then true
      else needsQuotingGo n ((b :: rest).drop (decodeRuneV (b :: rest)).2.1)

/-- Embedding of needsQuoting (text_handler.go): the loop above run with
enough budget for the whole string. -/
def needsQuoting (l : List Nat) : Bool :=
  needsQuotingGo l.length l

/-- Total decomposition of a byte string into (rune, valid-encoding) pairs,
decoding exactly as the Go loop does; fueled like needsQuotingGo. -/
def decodeListGo : Nat → List Nat → List (Nat × Bool)
  | _, [] => []
  | 0, _ :: _ => []
  | n + 1, b :: rest =>
    ((decodeRuneV (b :: rest)).1, (decodeRuneV (b :: rest)).2.2) ::
      decodeListGo n ((b :: rest).drop (decodeRuneV (b :: rest)).2.1)

/-- Rune decomposition of a whole byte string. -/
def decodeList (l : List Nat) : List (Nat × Bool) :=
  decodeListGo l.length l

/-- The quoting condition exactly as the claim states it: an ASCII space,
'=', '"' or ASCII control byte, or a non-ASCII rune that is a Unicode
space, non-printable, or an invalid encoding. -/
def claimTrigger (p : Nat × Bool) : Bool :=
  if p.1 < 0x80 then p.1 = 0x20 || p.1 = 0x3D || p.1 = 0x22 || p.1 < 0x20
  else !p.2 || goIsSpace p.1 || !(goIsPrint p.1)

/-- The claimed characterization of needsQuoting. -/
def needsQuotingClaim (l : List Nat) : Bool :=
  (decodeList l).any claimTrigger

/-- The amended trigger: also quote a (validly encoded) literal replacement
character U+FFFD, which Go's decoder maps to the same RuneError value as an
invalid encoding. -/
def amendedTrigger (p : Nat × Bool) : Bool :=
  if p.1 < 0x80 then p.1 = 0x20 || p.1 = 0x3D || p.1 = 0x22 || p.1 < 0x20
  else !p.2 || p.1 = 0xFFFD || goIsSpace p.1 || !(goIsPrint p.1)

/-- The amended characterization of needsQuoting. -/
def needsQuotingAmended (l : List Nat) : Bool :=
  (decodeList l).any amendedTrigger

/-! ## Handler layer: strings as char lists -/

/-- Go strings at the handler layer are modelled as lists of chars (Lean
chars are exactly the Unicode scalar values a valid Go string decodes
to); buffers are the chars written so far. -/
abbrev Str := List Char

/-- Char list of a string literal. -/
def s2l (s : String) : Str := s.data

/-- Char-level needsQuoting: on a valid Go string the byte loop of
needsQuoting decodes exactly the scalar values, so each ASCII char takes
the safeSet branch and every other char the rune branch (a literal
U+FFFD compares equal to RuneError there). -/
def needsQuotingS (l : Str) : Bool :=
  l.any fun c =>
    if c.toNat < 0x80 then
      !(c.toNat = 0x5C) && (c.toNat = 0x20 || c.toNat = 0x3D || !(safeSet c.toNat))
    else
      c.toNat = 0xFFFD || goIsSpace c.toNat || !(goIsPrint c.toNat)

/-- Lower-case hex digit. -/
def hexDigit (n : Nat) : Char :=
  if n < 10 then Char.ofNat (48 + n) else Char.ofNat (87 + n)

/-- Two hex digits. -/
def hex2 (n : Nat) : Str := [hexDigit (n / 16 % 16), hexDigit (n % 16)]

/-- Four hex digits. -/
def hex4 (n : Nat) : Str := hex2 (n / 256) ++ hex2 (n % 256)

/-- Eight hex digits. -/
def hex8 (n : Nat) : Str := hex4 (n / 65536) ++ hex4 (n % 65536)

/-- Model of one rune's escape under strconv.Quote (standard library):
quote and backslash get a backslash escape, printable runes pass through,
the named control escapes are used where defined, and everything else
becomes a hex escape of the appropriate width. -/
def quoteChar (c : Char) : Str :=
  if c = '"' || c = '\\' then ['\\', c]
  else if c.toNat < 0x80 then
    if 0x20 ≤ c.toNat && c.toNat ≤ 0x7E then [c]
    else if c.toNat = 0x07 then ['\\', 'a']
    else if c.toNat = 0x08 then ['\\', 'b']
    else if c.toNat = 0x0C then ['\\', 'f']
    else if c.toNat = 0x0A then ['\\', 'n']
    else if c.toNat = 0x0D then ['\\', 'r']
    else if c.toNat = 0x09 then ['\\', 't']
    else if c.toNat = 0x0B then ['\\', 'v']
    else '\\' :: 'x' :: hex2 c.toNat
  else if goIsPrint c.toNat then [c]
  else if c.toNat = 0x07 then ['\\', 'a']
  else if c.toNat = 0x08 then ['\\', 'b']
  else if c.toNat = 0x0C then ['\\', 'f']
  else if c.toNat = 0x0A then ['\\', 'n']
  else if c.toNat = 0x0D then ['\\', 'r']
  else if c.toNat = 0x09 then ['\\', 't']
  else if c.toNat = 0x0B then ['\\', 'v']
  else if c.toNat < 0x10000 then '\\' :: 'u' :: hex4 c.toNat
  else '\\' :: 'U' :: hex8 c.toNat

/-- Model of strconv.Quote (standard library): a double-quoted,
backslash-escaped literal. -/
def goQuote (l : Str) : Str :=
  '"' :: (l.map quoteChar).flatten ++ ['"']

/-- Embedding of handleState.appendString's decision: quote only when
needed. -/
def renderString (l : Str) : Str :=
  if needsQuotingS l then goQuote l else l

/-- Decimal digits of a natural number. -/
def natRepr (n : Nat) : Str := (Nat.repr n).data

/-- Decimal rendering of a Go int64 (strconv.AppendInt, base 10). -/
def intRepr (n : Int) : Str :=
  if n < 0 then '-' :: natRepr n.natAbs else natRepr n.natAbs

/-! ## Time formatting -/

/-- A Go time.Time as seen through the accessors the handler uses:
Date(), Clock(), Nanosecond() and Zone() (offset in seconds east of
UTC).  The calendar arithmetic behind those accessors belongs to the
external time package; the model carries their results. -/
structure GoTime where
  year : Nat
  month : Nat
  day : Nat
  hour : Nat
  minute : Nat
  second : Nat
  ns : Nat
  offsetSeconds : Int
deriving Repr, DecidableEq

/-- Modelled from the spec: buffer.WritePosIntWidth (internal buffer
package, not among the provided sources) writes the decimal form of a
non-negative integer left-padded with zeros to the given width. -/
def padNat (n w : Nat) : Str :=
  List.replicate (w - (natRepr n).length) '0' ++ natRepr n

/-- Embedding of writeTimeRFC3339Millis: fixed-layout date, time and
truncated milliseconds, then Z for a zero offset or a signed HH:MM zone
computed from the truncated minute offset. -/
def writeTimeRFC3339Millis (b : Str) (t : GoTime) : Str :=
  let b := b ++ padNat t.year 4
  let b := b ++ ['-']
  let b := b ++ padNat t.month 2
  let b := b ++ ['-']
  let b := b ++ padNat t.day 2
  let b := b ++ ['T']
  let b := b ++ padNat t.hour 2
  let b := b ++ [':']
  let b := b ++ padNat t.minute 2
  let b := b ++ [':']
  let b := b ++ padNat t.second 2
  let b := b ++ ['.']
  let b := b ++ padNat (t.ns / 1000000) 3
  if t.offsetSeconds = 0 then b ++ ['Z']
  else
    let om := Int.tdiv t.offsetSeconds 60
    let sign : Char := if om < 0 then '-' else '+'
    b ++ [sign] ++ padNat (om.natAbs / 60) 2 ++ [':'] ++ padNat (om.natAbs % 60) 2

/-- RFC3339 rendering with fixed millisecond precision, written from the
spec's words: YYYY-MM-DDTHH:MM:SS.mmm, truncated milliseconds, then Z
for UTC or a signed HH:MM offset.  The zone is rendered from the
whole-minute part of the offset (RFC3339 offsets have minute
granularity; Go's own RFC3339 formatting truncates seconds the same
way). -/
def rfc3339MillisSpec (t : GoTime) : Str :=
  padNat t.year 4 ++ ['-'] ++ padNat t.month 2 ++ ['-'] ++ padNat t.day 2 ++ ['T'] ++
    padNat t.hour 2 ++ [':'] ++ padNat t.minute 2 ++ [':'] ++ padNat t.second 2 ++
    ['.'] ++ padNat (t.ns / 1000000) 3 ++
    (if t.offsetSeconds = 0 then ['Z']
     else
       (if Int.tdiv t.offsetSeconds 60 < 0 then ['-'] else ['+']) ++
         padNat ((Int.tdiv t.offsetSeconds 60).natAbs / 60) 2 ++ [':'] ++
         padNat ((Int.tdiv t.offsetSeconds 60).natAbs % 60) 2)

/-! ## Values and attributes -/

/-- A resolved slog value as the handler dispatches on it.  Kinds whose
rendering is produced by a standard-library collaborator (float64 via
strconv.AppendFloat, duration via Duration.String) carry that rendered
text.  An opaque (KindAny) value is one of: a TextMarshaler carrying its
MarshalText result, a byte slice, or any other value carrying its
appendJSONMarshal result (that function is repository code not among the
provided sources; modelled from the spec as a structured JSON
serialization appended raw to the buffer).  A slog.Level value (handed
to appendAttr by handle's built-in path) is its own case. -/
inductive Value where
  | str (s : Str)
  | int64 (n : Int)
  | uint64 (n : Nat)
  | float64 (rendered : Str)
  | bool (b : Bool)
  | duration (rendered : Str)
  | time (t : GoTime)
  | group (attrs : List (Str × Value))
  | level (l : Int)
  | anyTextM (res : Except Str Str)
  | anyBytes (bs : Str)
  | anyJSON (res : Except Str Str)

/-- An attribute: key and value. -/
abbrev Attr := Str × Value

/-- Kind test for the group kind. -/
def Value.isGroup : Value → Bool
  | .group _ => true
  | _ => false

/-- Model of Value.Resolve.  Record values arrive already resolved, and
the model has no lazy-valuer constructor (LogValuer resolution is an
external collaborator), so resolution is the identity here. -/
def Value.resolve (v : Value) : Value := v

/-- A replace-attribute hook: open group names and the candidate
attribute, returning the replacement. -/
abbrev RepFn := List Str → Attr → Attr

/-- Model of slog.Level.String (standard library): base name plus a
signed decimal delta when off the base levels (Debug -4, Info 0,
Warn 4, Error 8). -/
def levelDelta (base : Str) (d : Int) : Str :=
  if d = 0 then base
  else base ++ (if 0 < d then '+' :: natRepr d.natAbs else '-' :: natRepr d.natAbs)

/-- Model of slog.Level.String dispatch on the level bands. -/
def levelStr (l : Int) : Str :=
  if l < 0 then levelDelta (s2l "DEBUG") (l + 4)
  else if l < 4 then levelDelta (s2l "INFO") l
  else if l < 8 then levelDelta (s2l "WARN") (l - 4)
  else levelDelta (s2l "ERROR") (l - 8)

/-! ## Handler state and state operations -/

/-- Handler options (slog.HandlerOptions as the handler reads them). -/
structure Options where
  minLevel : Option Int
  addSource : Bool
  replaceAttr : Option RepFn

/-- Embedding of the TextHandler struct.  The writer and mutex live
outside the value model: the sink is passed to handleF per call. -/
structure TextHandler where
  opts : Options
  preformattedAttrs : Str
  groupPfx : Str
  groups : List Str
  nOpenGroups : Nat

/-- Embedding of handleState: the output buffer, the key prefix buffer
(the built-in phase's nil prefix is modelled by the empty prefix, which
appendKey treats identically), and the pool-allocated group-name list
for the replace hook (none when no hook is configured, and during the
built-in phase). -/
@[ext]
structure HandleState where
  buf : Str
  pfx : Str
  groups? : Option (List Str)

/-- Embedding of TextHandler.enabled: at least the configured minimum
level, defaulting to Info (0). -/
def TextHandler.enabled (h : TextHandler) (l : Int) : Bool :=
  (h.opts.minLevel.getD 0) ≤ l

/-- Embedding of handleState.openGroup: extend the prefix with
name-plus-separator and record the name for the replace hook. -/
def openGroupS (s : HandleState) (name : Str) : HandleState :=
  { s with pfx := s.pfx ++ name ++ ['.'],
           groups? := s.groups?.map (fun gs => gs ++ [name]) }

/-- Embedding of handleState.closeGroup: drop name-plus-separator from
the prefix end and pop the hook group list. -/
def closeGroupS (s : HandleState) (name : Str) : HandleState :=
  { s with pfx := s.pfx.take (s.pfx.length - (name.length + 1)),
           groups? := s.groups?.map (fun gs => gs.dropLast) }

/-- Embedding of handleState.appendString. -/
def appendStringS (s : HandleState) (str : Str) : HandleState :=
  { s with buf := s.buf ++ renderString str }

/-- Embedding of handleState.appendKey: a single space separator into a
non-empty buffer, then the prefixed key rendered like a string, then
'='. -/
def appendKeyS (s : HandleState) (key : Str) : HandleState :=
  let b := if s.buf = [] then s.buf else s.buf ++ [' ']
  { s with buf := b ++ renderString (s.pfx ++ key) ++ ['='] }

/-- Embedding of handleState.appendSource (WritePosInt of the internal
buffer package is modelled from the spec as plain decimal). -/
def appendSourceS (s : HandleState) (file : Str) (line : Nat) : HandleState :=
  if needsQuotingS file then appendStringS s (file ++ ':' :: natRepr line)
  else
    let s := appendStringS s file
    { s with buf := s.buf ++ ':' :: natRepr line }

/-- Embedding of handleState.appendTime. -/
def appendTimeS (s : HandleState) (t : GoTime) : HandleState :=
  { s with buf := writeTimeRFC3339Millis s.buf t }

/-- Embedding of appendTextValue (text_handler.go).  A failing
TextMarshaler or JSON marshal returns its error without touching the
buffer, exactly as the source returns before writing.  The group case
mirrors the source's fmt.Append line, which is unreachable from
appendAttr (the handler dispatches groups structurally before calling
appendValue), so the model appends nothing there. -/
def appendTextValueE (s : HandleState) : Value → Except Str HandleState
  | .str v => .ok (appendStringS s v)
  | .time t => .ok (appendTimeS s t)
  | .anyTextM (.error e) => .error e
  | .anyTextM (.ok data) => .ok (appendStringS s data)
  | .anyBytes bs => .ok { s with buf := s.buf ++ goQuote bs }
  | .anyJSON (.error e) => .error e
  | .anyJSON (.ok data) => .ok { s with buf := s.buf ++ data }
  | .level l => .ok (appendStringS s (levelStr l))
  | .int64 n => .ok { s with buf := s.buf ++ intRepr n }
  | .uint64 n => .ok { s with buf := s.buf ++ natRepr n }
  | .float64 rendered => .ok { s with buf := s.buf ++ rendered }
  | .bool b => .ok { s with buf := s.buf ++ (if b then s2l "true" else s2l "false") }
  | .duration rendered => .ok { s with buf := s.buf ++ rendered }
  | .group _ => .ok s

/-- Embedding of handleState.appendError: the inline error marker,
written through appendString. -/
def appendErrorS (s : HandleState) (e : Str) : HandleState :=
  appendStringS s (s2l "!ERROR:" ++ e)

/-- Embedding of handleState.appendValue: render the value, substituting
the error marker inline on failure. -/
def appendValueS (s : HandleState) (v : Value) : HandleState :=
  match appendTextValueE s v with
  | .ok s2 => s2
  | .error e => appendErrorS s e

/-- The non-replacement tail of appendAttr: structural handling of a
group value (elide empty groups, inline an empty key, otherwise
open/close the group around the children) or key-plus-value emission of
a leaf. -/
def appendAttrTail (recur : HandleState → Attr → HandleState)
    (s : HandleState) (key : Str) (v : Value) : HandleState :=
  match v with
  | .group attrs =>
    if attrs.isEmpty then s
    else
      let s1 := if key = [] then s else openGroupS s key
      let s2 := List.foldl recur s1 attrs
      if key = [] then s2 else closeGroupS s2 key
  | _ => appendValueS (appendKeyS s key) v

/-- Embedding of handleState.appendAttr.  The fuel bounds group-nesting
depth: each descent into a group's children consumes one unit (Go's
recursion is unbounded only when a replace hook keeps returning group
values), and with fuel 0 an attribute is not processed at all.  Every
theorem below quantifies over the fuel. -/
def appendAttrF (rep : Option RepFn) : Nat → HandleState → Attr → HandleState
  | 0, s, _ => s
  | fuel + 1, s, a =>
    if a.1 = [] && !a.2.isGroup then s
    else
      match rep with
      | some f =>
        if a.2.isGroup then appendAttrTail (appendAttrF rep fuel) s a.1 a.2
        else
          let a2 := f (s.groups?.getD []) (a.1, a.2)
          if a2.1 = [] then s
          else appendAttrTail (appendAttrF rep fuel) s a2.1 a2.2.resolve
      | none => appendAttrTail (appendAttrF rep fuel) s a.1 a.2

/-! ## Records and the handler pipeline -/

/-- A log record as the handler consumes it: none models the zero time;
file and line are the already-resolved source frame (recordFrame
resolves the PC through the runtime, an external collaborator), an
empty file meaning no resolvable call site. -/
structure Record where
  time? : Option GoTime
  level : Int
  message : Str
  file : Str
  line : Nat
  attrs : List Attr

/-- Embedding of newHandleState's group seeding: with a replace hook the
per-call group list starts as the groups already baked into the
preformatted output; without one it stays nil. -/
def newStateGroups (h : TextHandler) : Option (List Str) :=
  if h.opts.replaceAttr.isSome then some (h.groups.take h.nOpenGroups) else none

/-- Embedding of handleState.openGroups: open every handler group not
yet baked into the preformatted prefix. -/
def openGroupsS (h : TextHandler) (s : HandleState) : HandleState :=
  List.foldl openGroupS s (h.groups.drop h.nOpenGroups)

/-- Embedding of TextHandler.withGroup. -/
def TextHandler.withGroup (h : TextHandler) (name : Str) : TextHandler :=
  if name = [] then h else { h with groups := h.groups ++ [name] }

/-- Embedding of TextHandler.withAttrs: starting from the clone's
existing preformatted bytes and group prefix, open the pending groups,
append the new attributes, then record the new prefix and mark every
group as baked. -/
def TextHandler.withAttrsF (fuel : Nat) (h : TextHandler) (as : List Attr) : TextHandler :=
  let s : HandleState :=
    { buf := h.preformattedAttrs, pfx := h.groupPfx, groups? := newStateGroups h }
  let s := openGroupsS h s
  let s := List.foldl (appendAttrF h.opts.replaceAttr fuel) s as
  { h with preformattedAttrs := s.buf, groupPfx := s.pfx, nOpenGroups := h.groups.length }

/-- Embedding of the built-in section of TextHandler.handle: time (only
when non-zero), level, source (only with addSource and a resolvable
frame), msg; each goes through the replace hook when one is configured,
with a nil group list and a nil prefix. -/
def builtinState (fuel : Nat) (h : TextHandler) (r : Record) : HandleState :=
  let rep := h.opts.replaceAttr
  let s : HandleState := { buf := [], pfx := [], groups? := none }
  let s := match r.time?, rep with
    | none, _ => s
    | some t, none => appendTimeS (appendKeyS s (s2l "time")) t
    | some t, some _ => appendAttrF rep fuel s (s2l "time", .time t)
  let s := match rep with
    | none => appendStringS (appendKeyS s (s2l "level")) (levelStr r.level)
    | some _ => appendAttrF rep fuel s (s2l "level", .level r.level)
  let s := if h.opts.addSource && !(r.file = []) then
      match rep with
      | none => appendSourceS (appendKeyS s (s2l "source")) r.file r.line
      | some _ => appendAttrF rep fuel s (s2l "source", .str (r.file ++ ':' :: natRepr r.line))
    else s
  match rep with
  | none => appendStringS (appendKeyS s (s2l "msg")) r.message
  | some _ => appendAttrF rep fuel s (s2l "msg", .str r.message)

/-- Embedding of handleState.appendNonBuiltIns: splice the preformatted
attributes (with a separating space into a non-empty buffer), reset the
prefix to the handler's group prefix, open the pending groups, then
append the record's attributes. -/
def appendNonBuiltInsF (fuel : Nat) (h : TextHandler) (s : HandleState) (r : Record) :
    HandleState :=
  let s := if h.preformattedAttrs = [] then s
    else if s.buf = [] then { s with buf := h.preformattedAttrs }
    else { s with buf := s.buf ++ ' ' :: h.preformattedAttrs }
  let s := { s with pfx := h.groupPfx }
  let s := openGroupsS h s
  List.foldl (appendAttrF h.opts.replaceAttr fuel) s r.attrs

/-- Embedding of TextHandler.handle up to (and excluding) the write: the
full line, newline included.  The built-in phase runs with a nil group
list, which is then restored to the seeded list for the record phase. -/
def TextHandler.lineF (fuel : Nat) (h : TextHandler) (r : Record) : Str :=
  let s := builtinState fuel h r
  let s := { s with groups? := newStateGroups h }
  let s := appendNonBuiltInsF fuel h s r
  s.buf ++ ['\n']

/-- The output sink: the writes made so far plus the sink's error
response to a given write.  write appends the bytes and returns the
response, as io.Writer.Write does (handle discards the byte count). -/
structure Sink where
  written : List Str
  resp : Str → Option Str

/-- One write call on the sink. -/
def Sink.write (w : Sink) (bs : Str) : Sink × Option Str :=
  ({ w with written := w.written ++ [bs] }, w.resp bs)

/-- Embedding of TextHandler.handle: build the line on the call-private
buffer, then perform the single serialized write and return its error. -/
def TextHandler.handleF (fuel : Nat) (h : TextHandler) (w : Sink) (r : Record) :
    Sink × Option Str :=
  w.write (h.lineF fuel r)

/-- Embedding of NewHandlerWithOpts. -/
def newHandler (o : Options) : TextHandler :=
  { opts := o, preformattedAttrs := [], groupPfx := [], groups := [], nOpenGroups := 0 }

/-- Handler values reachable through the public constructors. -/
inductive Reached : TextHandler → Prop where
  | base (o : Options) : Reached (newHandler o)
  | withAttrs (fuel : Nat) (as : List Attr) (h : TextHandler) :
      Reached h → Reached (h.withAttrsF fuel as)
  | withGroup (name : Str) (h : TextHandler) :
      Reached h → Reached (h.withGroup name)

/-! ## Token view of the output (specification side) -/

/-- Append fields to a buffer with a single space before each field
except into an empty buffer: the appendKey separator discipline. -/
def pushToks (b : Str) (ts : List Str) : Str :=
  List.foldl (fun b t => if b = [] then t else b ++ ' ' :: t) b ts

/-- Fields joined by single spaces. -/
def joinSp (ts : List Str) : Str := pushToks [] ts

/-- The text one value contributes to the buffer: its successful
rendering, or the inline error marker. -/
def renderValue : Value → Str
  | .str s => renderString s
  | .time t => writeTimeRFC3339Millis [] t
  | .anyTextM (.error e) => renderString (s2l "!ERROR:" ++ e)
  | .anyTextM (.ok data) => renderString data
  | .anyBytes bs => goQuote bs
  | .anyJSON (.error e) => renderString (s2l "!ERROR:" ++ e)
  | .anyJSON (.ok data) => data
  | .level l => renderString (levelStr l)
  | .int64 n => intRepr n
  | .uint64 n => natRepr n
  | .float64 rendered => rendered
  | .bool b => if b then s2l "true" else s2l "false"
  | .duration rendered => rendered
  | .group _ => []

/-- Token tail mirroring appendAttrTail: group structure or one
key=value field. -/
def attrToksTail (recur : Str → Option (List Str) → Attr → List Str)
    (pfx : Str) (gs? : Option (List Str)) (key : Str) (v : Value) : List Str :=
  match v with
  | .group attrs =>
    if attrs.isEmpty then []
    else if key = [] then (attrs.map (recur pfx gs?)).flatten
    else (attrs.map
      (recur (pfx ++ key ++ ['.']) (gs?.map (fun gs => gs ++ [key])))).flatten
  | _ => [renderString (pfx ++ key) ++ '=' :: renderValue v]

/-- The key=value fields one attribute emits, given the current prefix
and hook group list; mirrors appendAttrF branch for branch. -/
def attrToksF (rep : Option RepFn) : Nat → Str → Option (List Str) → Attr → List Str
  | 0, _, _, _ => []
  | fuel + 1, pfx, gs?, a =>
    if a.1 = [] && !a.2.isGroup then []
    else
      match rep with
      | some f =>
        if a.2.isGroup then attrToksTail (attrToksF rep fuel) pfx gs? a.1 a.2
        else
          let a2 := f (gs?.getD []) (a.1, a.2)
          if a2.1 = [] then []
          else attrToksTail (attrToksF rep fuel) pfx gs? a2.1 a2.2.resolve
      | none => attrToksTail (attrToksF rep fuel) pfx gs? a.1 a.2

/-- Fields of a list of attributes. -/
def attrsToksF (rep : Option RepFn) (fuel : Nat) (pfx : Str) (gs? : Option (List Str))
    (as : List Attr) : List Str :=
  (as.map (attrToksF rep fuel pfx gs?)).flatten

/-- The source token value: quoted as one string when the file needs
quoting, else raw file, colon, line. -/
def sourceRender (file : Str) (line : Nat) : Str :=
  if needsQuotingS file then renderString (file ++ ':' :: natRepr line)
  else file ++ ':' :: natRepr line

/-- The fields the built-in section emits; the hook path runs with an
empty prefix and a nil group list, exactly as handle does. -/
def builtinToksF (o : Options) (fuel : Nat) (r : Record) : List Str :=
  let rep := o.replaceAttr
  let tTime := match r.time?, rep with
    | none, _ => []
    | some t, none => [renderString (s2l "time") ++ '=' :: writeTimeRFC3339Millis [] t]
    | some t, some _ => attrToksF rep fuel [] none (s2l "time", .time t)
  let tLevel := match rep with
    | none => [renderString (s2l "level") ++ '=' :: renderString (levelStr r.level)]
    | some _ => attrToksF rep fuel [] none (s2l "level", .level r.level)
  let tSource := if o.addSource && !(r.file = []) then
      match rep with
      | none => [renderString (s2l "source") ++ '=' :: sourceRender r.file r.line]
      | some _ => attrToksF rep fuel [] none (s2l "source", .str (r.file ++ ':' :: natRepr r.line))
    else []
  let tMsg := match rep with
    | none => [renderString (s2l "msg") ++ '=' :: renderString r.message]
    | some _ => attrToksF rep fuel [] none (s2l "msg", .str r.message)
  tTime ++ tLevel ++ tSource ++ tMsg

/-- Prefix segments contributed by opening a run of groups. -/
def groupSegs (gs : List Str) : Str :=
  (gs.map (fun g => g ++ ['.'])).flatten

/-- The key prefix in force for record attributes: the preformatted
prefix plus the pending (unbaked) groups. -/
def fullPfx (h : TextHandler) : Str :=
  h.groupPfx ++ groupSegs (h.groups.drop h.nOpenGroups)

/-- The hook group list in force for record attributes: the seeded baked
groups plus the pending ones (their concatenation is the whole group
list). -/
def fullGroups? (h : TextHandler) : Option (List Str) :=
  if h.opts.replaceAttr.isSome then
    some (h.groups.take h.nOpenGroups ++ h.groups.drop h.nOpenGroups)
  else none

/-- Well-formed preformatted bytes: a space-joined list of non-empty
fields (established for every reachable handler). -/
def PreWF (h : TextHandler) : Prop :=
  ∃ ts : List Str, (∀ t ∈ ts, t ≠ []) ∧ h.preformattedAttrs = joinSp ts

/-- The preformatted-attribute splice of appendNonBuiltIns, as a buffer
function: nothing for empty preformatted bytes, else the bytes preceded
by a space when the buffer is non-empty. -/
def spliceBuf (b pre : Str) : Str :=
  if pre = [] then b else if b = [] then pre else b ++ ' ' :: pre

/-- The fields the record's own attributes emit, at the full prefix and
full hook group list in force after openGroups. -/
def recToksF (fuel : Nat) (h : TextHandler) (r : Record) : List Str :=
  attrsToksF h.opts.replaceAttr fuel (fullPfx h) (fullGroups? h) r.attrs

/-- A replace hook that records the group list it observes: it rewrites
every attribute's value to the concatenation of the open group names. -/
def obsHook : RepFn := fun gs a => (a.1, Value.str gs.flatten)

/-- Plain options: default level, no source, no hook (for concrete
instances). -/
def optsPlain : Options := ⟨none, false, none⟩

/-- Options carrying the observing hook (for concrete instances). -/
def obsOpts : Options := ⟨none, false, some obsHook⟩

/-- An empty sink that accepts every write (for concrete instances). -/
def emptySink : Sink := ⟨[], fun _ => none⟩

/-- The empty per-call state (for concrete instances). -/
def state0 : HandleState := ⟨[], [], none⟩

/-- A minimal record: no time, level 0, message m, no frame, no
attributes (for concrete instances). -/
def rec0 : Record := ⟨none, 0, s2l "m", [], 0, []⟩

/-! # Theorems -/

/-! ## Quoting engine: decoder lemmas -/

theorem decodeRuneV_size_pos (b : Nat) (rest : List Nat) :
    1 ≤ (decodeRuneV (b :: rest)).2.1 := by
  rw [decodeRuneV.eq_def]
  repeat' split
  all_goals simp_all

theorem decodeRuneV_ascii (b : Nat) (rest : List Nat) (hb : b < 0x80) :
    decodeRuneV (b :: rest) = (b, 1, true) := by
  rw [decodeRuneV.eq_def]
  simp [hb]

theorem decodeRuneV_valid_or_fffd (b : Nat) (rest : List Nat) :
    (decodeRuneV (b :: rest)).2.2 = true ∨ (decodeRuneV (b :: rest)).1 = 0xFFFD := by
  rw [decodeRuneV.eq_def]
  repeat' split
  all_goals simp_all

theorem acceptRange_low3 (b b1 : Nat) (hb : 0xE0 ≤ b) (h1 : (acceptRange b).1 ≤ b1) :
    0x80 ≤ (b - 0xE0) * 4096 + (b1 - 0x80) * 64 := by
  rcases eq_or_ne b 0xE0 with hb0 | hb0
  · subst hb0
    simp only [acceptRange] at h1
    norm_num at h1
    omega
  · omega

theorem acceptRange_low4 (b b1 : Nat) (hb : 0xF0 ≤ b) (h1 : (acceptRange b).1 ≤ b1) :
    0x80 ≤ (b - 0xF0) * 262144 + (b1 - 0x80) * 4096 := by
  rcases eq_or_ne b 0xF0 with hb0 | hb0
  · subst hb0
    simp only [acceptRange] at h1
    norm_num at h1
    omega
  · omega

theorem decodeRuneV_hi (b : Nat) (rest : List Nat) (hb : ¬ b < 0x80) :
    0x80 ≤ (decodeRuneV (b :: rest)).1 := by
  rw [decodeRuneV.eq_def]
  repeat' split
  all_goals simp_all
  · omega
  · rename_i hrange heq hacc
    exact Nat.le_trans (acceptRange_low3 _ _ hrange.1 hacc.1.1) (Nat.le_add_right _ _)
  · rename_i hrange heq hacc
    exact Nat.le_trans (acceptRange_low4 _ _ hrange.1 hacc.1.1.1) (by omega)

theorem ite_bool_or (c x : Bool) : (if c then true else x) = (c || x) := by
  cases c <;> simp

theorem asciiTrigger_eq (b : Nat) (hb : b < 0x80) :
    (!(b = 0x5C) && (b = 0x20 || b = 0x3D || !(safeSet b))) =
      (decide (b = 0x20) || decide (b = 0x3D) || decide (b = 0x22) || decide (b < 0x20)) := by
  interval_cases b <;> rfl

theorem needsQuotingGo_eq_amended :
    ∀ (n : Nat) (l : List Nat), l.length ≤ n →
      needsQuotingGo n l = (decodeListGo n l).any amendedTrigger := by
  intro n
  induction n with
  | zero =>
    intro l hl
    match l with
    | [] => rfl
  | succ n ih =>
    intro l hl
    match l with
    | [] => rfl
    | b :: rest =>
      by_cases hb : b < 0x80
      · rw [needsQuotingGo, decodeListGo, decodeRuneV_ascii b rest hb]
        simp only [List.any_cons, List.drop_succ_cons, List.drop_zero, ite_bool_or]
        rw [ih rest (by simpa using Nat.le_of_succ_le_succ (by simpa using hl))]
        have hhead : amendedTrigger (b, true) =
            (decide (b = 0x20) || decide (b = 0x3D) || decide (b = 0x22) || decide (b < 0x20)) := by
          simp [amendedTrigger, hb]
        rw [hhead, asciiTrigger_eq b hb]
        simp [hb]
      · rw [needsQuotingGo, decodeListGo]
        simp only [List.any_cons, ite_bool_or, hb, if_false]
        have hlen : ((b :: rest).drop (decodeRuneV (b :: rest)).2.1).length ≤ n := by
          have h1 := decodeRuneV_size_pos b rest
          simp only [List.length_drop]
          simp only [List.length_cons] at hl ⊢
          omega
        rw [ih _ hlen]
        have hhead : (decide ((decodeRuneV (b :: rest)).1 = 0xFFFD) ||
            goIsSpace (decodeRuneV (b :: rest)).1 || !goIsPrint (decodeRuneV (b :: rest)).1) =
            amendedTrigger ((decodeRuneV (b :: rest)).1, (decodeRuneV (b :: rest)).2.2) := by
          have hr : ¬ (decodeRuneV (b :: rest)).1 < 0x80 := by
            have := decodeRuneV_hi b rest hb
            omega
          rcases decodeRuneV_valid_or_fffd b rest with hv | hf
          · simp [amendedTrigger, hr, hv]
          · simp [amendedTrigger, hr, hf]
        rw [hhead]

/-- C2, counterexample to the claim as stated: the three bytes
EF BF BD are the valid encoding of the replacement character U+FFFD,
which is a printable, non-space rune and not an invalid encoding, so the
claimed characterization is false on them; yet needsQuoting returns true
(Go's decoder returns the same RuneError value for a literal U+FFFD as
for an invalid encoding, and needsQuoting tests only that value). -/
theorem claim_C2_counterexample :
    needsQuoting [0xEF, 0xBF, 0xBD] = true ∧
      needsQuotingClaim [0xEF, 0xBF, 0xBD] = false := by
  constructor <;> decide

/-- C2 (amended): needsQuoting s is true if and only if s contains an
ASCII space, '=', '"', an ASCII control byte, or a non-ASCII rune that
is a Unicode space, is non-printable, is an invalid UTF-8 encoding, or
is the replacement character U+FFFD itself (even when validly encoded);
in particular a backslash alone never forces quoting and the printable
non-ASCII letters of the UTF-8 bytes of "µåπ" do not force quoting. -/
theorem claim_C2_amended :
    (∀ l : List Nat, needsQuoting l = needsQuotingAmended l) ∧
    needsQuoting [0x5C] = false ∧
    needsQuoting [0xC2, 0xB5, 0xC3, 0xA5, 0xCF, 0x80] = false := by
  refine ⟨fun l => needsQuotingGo_eq_amended l.length l le_rfl, by decide, by decide⟩

/-! ## State lemmas: buffers accumulate space-separated fields -/

theorem pushToks_nil (b : Str) : pushToks b [] = b := rfl

theorem pushToks_app (b : Str) (x y : List Str) :
    pushToks (pushToks b x) y = pushToks b (x ++ y) := by
  simp [pushToks, List.foldl_append]

set_option maxRecDepth 8000 in
theorem writeTime_append (b : Str) (t : GoTime) :
    writeTimeRFC3339Millis b t = b ++ writeTimeRFC3339Millis [] t := by
  by_cases h : t.offsetSeconds = 0 <;>
    simp [writeTimeRFC3339Millis, h, List.append_assoc]

theorem appendValueS_buf (s : HandleState) (v : Value) :
    appendValueS s v = { s with buf := s.buf ++ renderValue v } := by
  cases v
  case time t =>
    simp only [appendValueS, appendTextValueE, appendTimeS, renderValue]
    rw [writeTime_append]
  case group attrs => simp [appendValueS, appendTextValueE, renderValue]
  case anyTextM res => cases res <;> rfl
  case anyJSON res => cases res <;> rfl
  all_goals rfl

theorem appendKeyS_buf (s : HandleState) (key : Str) :
    appendKeyS s key =
      { s with buf := (if s.buf = [] then [] else s.buf ++ [' ']) ++
          (renderString (s.pfx ++ key) ++ ['=']) } := by
  simp only [appendKeyS]
  split <;> simp_all

theorem leaf_step (s : HandleState) (key : Str) (v : Value) :
    appendValueS (appendKeyS s key) v =
      { s with buf := pushToks s.buf [renderString (s.pfx ++ key) ++ '=' :: renderValue v] } := by
  rw [appendValueS_buf, appendKeyS_buf]
  simp only [pushToks, List.foldl_cons, List.foldl_nil]
  split <;> simp [List.append_assoc]

theorem closeGroupS_openGroupS (s : HandleState) (key : Str) (buf2 : Str) :
    closeGroupS { openGroupS s key with buf := buf2 } key = { s with buf := buf2 } := by
  simp only [closeGroupS, openGroupS]
  ext : 1
  · rfl
  · show (s.pfx ++ key ++ ['.']).take ((s.pfx ++ key ++ ['.']).length - (key.length + 1)) = s.pfx
    have h1 : (s.pfx ++ key ++ ['.']).length - (key.length + 1) = s.pfx.length := by
      simp [List.length_append]
    rw [h1, List.append_assoc, List.take_left]
  · show (s.groups?.map fun gs => gs ++ [key]).map List.dropLast = s.groups?
    cases s.groups? <;> simp

theorem tail_toks (rep : Option RepFn) (n : Nat)
    (ihs : ∀ (as : List (Str × Value)) (s : HandleState),
      List.foldl (appendAttrF rep n) s as =
        { s with buf := pushToks s.buf (attrsToksF rep n s.pfx s.groups? as) })
    (s : HandleState) (key : Str) (v : Value) :
    appendAttrTail (appendAttrF rep n) s key v =
      { s with buf := pushToks s.buf (attrToksTail (attrToksF rep n) s.pfx s.groups? key v) } := by
  cases v
  case group attrs =>
    simp only [appendAttrTail, attrToksTail]
    by_cases he : attrs.isEmpty
    · simp [he, pushToks_nil]
    · simp only [he, if_false, Bool.false_eq_true]
      by_cases hk : key = []
      · simp only [hk, if_true]
        rw [ihs]
        rfl
      · simp only [hk, if_false]
        rw [ihs]
        have hpfx : (openGroupS s key).pfx = s.pfx ++ key ++ ['.'] := rfl
        have hgs : (openGroupS s key).groups? = s.groups?.map (fun gs => gs ++ [key]) := rfl
        rw [hpfx, hgs]
        have hbuf : (openGroupS s key).buf = s.buf := rfl
        rw [hbuf]
        exact closeGroupS_openGroupS s key _
  case str a => exact leaf_step s key (.str a)
  case int64 a => exact leaf_step s key (.int64 a)
  case uint64 a => exact leaf_step s key (.uint64 a)
  case float64 a => exact leaf_step s key (.float64 a)
  case bool a => exact leaf_step s key (.bool a)
  case duration a => exact leaf_step s key (.duration a)
  case time a => exact leaf_step s key (.time a)
  case level a => exact leaf_step s key (.level a)
  case anyTextM a => exact leaf_step s key (.anyTextM a)
  case anyBytes a => exact leaf_step s key (.anyBytes a)
  case anyJSON a => exact leaf_step s key (.anyJSON a)

theorem appendAttrF_toks (rep : Option RepFn) :
    ∀ (fuel : Nat) (s : HandleState) (a : Attr),
      appendAttrF rep fuel s a =
        { s with buf := pushToks s.buf (attrToksF rep fuel s.pfx s.groups? a) } := by
  intro fuel
  induction fuel with
  | zero => intro s a; rfl
  | succ n ih =>
    have ihs : ∀ (as : List (Str × Value)) (s : HandleState),
        List.foldl (appendAttrF rep n) s as =
          { s with buf := pushToks s.buf (attrsToksF rep n s.pfx s.groups? as) } := by
      intro as
      induction as with
      | nil => intro s; simp [attrsToksF, pushToks_nil]
      | cons a rest ihr =>
        intro s
        rw [List.foldl_cons, ih, ihr]
        simp only [attrsToksF, List.map_cons, List.flatten_cons]
        rw [pushToks_app]
    intro s a
    rcases rep with _ | f
    · rw [appendAttrF, attrToksF]
      split
      · rfl
      · exact tail_toks none n ihs s a.1 a.2
    · rw [appendAttrF, attrToksF]
      split
      · rfl
      · cases hg : a.2.isGroup
        · simp only [hg, if_false, Bool.false_eq_true]
          split
          · rfl
          · exact tail_toks (some f) n ihs s _ _
        · simp only [hg, if_true]
          exact tail_toks (some f) n ihs s a.1 a.2

theorem foldl_appendAttrF_toks (rep : Option RepFn) (fuel : Nat) :
    ∀ (as : List (Str × Value)) (s : HandleState),
      List.foldl (appendAttrF rep fuel) s as =
        { s with buf := pushToks s.buf (attrsToksF rep fuel s.pfx s.groups? as) } := by
  intro as
  induction as with
  | nil => intro s; simp [attrsToksF, pushToks_nil]
  | cons a rest ihr =>
    intro s
    rw [List.foldl_cons, appendAttrF_toks, ihr]
    simp only [attrsToksF, List.map_cons, List.flatten_cons]
    rw [pushToks_app]

/-! ## Tokens are never empty -/

theorem attrToksTail_ne_nil (rep : Option RepFn) (n : Nat)
    (ih : ∀ (pfx : Str) (gs? : Option (List Str)) (a : Attr) (t : Str),
      t ∈ attrToksF rep n pfx gs? a → t ≠ [])
    (pfx : Str) (gs? : Option (List Str)) (key : Str) (v : Value) :
    ∀ t ∈ attrToksTail (attrToksF rep n) pfx gs? key v, t ≠ [] := by
  cases v
  case group attrs =>
    intro t ht
    simp only [attrToksTail] at ht
    split at ht
    · simp at ht
    · split at ht
      · simp only [List.mem_flatten, List.mem_map] at ht
        obtain ⟨l, ⟨a, ha, rfl⟩, htl⟩ := ht
        exact ih _ _ a t htl
      · simp only [List.mem_flatten, List.mem_map] at ht
        obtain ⟨l, ⟨a, ha, rfl⟩, htl⟩ := ht
        exact ih _ _ a t htl
  all_goals
    intro t ht
    simp only [attrToksTail, List.mem_singleton] at ht
    subst ht
    simp

theorem attrToksF_ne_nil (rep : Option RepFn) :
    ∀ (fuel : Nat) (pfx : Str) (gs? : Option (List Str)) (a : Attr) (t : Str),
      t ∈ attrToksF rep fuel pfx gs? a → t ≠ [] := by
  intro fuel
  induction fuel with
  | zero => intro _ _ _ t ht; simp [attrToksF] at ht
  | succ n ih =>
    intro pfx gs? a t ht
    rcases rep with _ | f
    · rw [attrToksF] at ht
      split at ht
      · simp at ht
      · exact attrToksTail_ne_nil none n ih pfx gs? a.1 a.2 t ht
    · rw [attrToksF] at ht
      split at ht
      · simp at ht
      · split at ht
        · exact attrToksTail_ne_nil (some f) n ih pfx gs? a.1 a.2 t ht
        · simp only [] at ht
          split at ht
          · simp at ht
          · exact attrToksTail_ne_nil (some f) n ih pfx gs? _ _ t ht

theorem attrsToksF_ne_nil (rep : Option RepFn) (fuel : Nat) (pfx : Str)
    (gs? : Option (List Str)) (as : List (Str × Value)) :
    ∀ t ∈ attrsToksF rep fuel pfx gs? as, t ≠ [] := by
  intro t ht
  simp only [attrsToksF, List.mem_flatten, List.mem_map] at ht
  obtain ⟨l, ⟨a, ha, rfl⟩, htl⟩ := ht
  exact attrToksF_ne_nil rep fuel pfx gs? a t htl

/-! ## pushToks algebra -/

theorem pushToks_ne_nil_left (x : Str) :
    ∀ (ts : List Str) (p : Str), p ≠ [] → pushToks (x ++ p) ts = x ++ pushToks p ts := by
  intro ts
  induction ts with
  | nil => intro p hp; rfl
  | cons t rest ihr =>
    intro p hp
    simp only [pushToks, List.foldl_cons] at *
    rw [if_neg (by simp [hp]), if_neg hp, List.append_assoc]
    exact ihr (p ++ ' ' :: t) (by simp)

theorem pushToks_nonempty : ∀ (ts : List Str) (b : Str), b ≠ [] → pushToks b ts ≠ [] := by
  intro ts
  induction ts with
  | nil => intro b hb; exact hb
  | cons t rest ihr =>
    intro b hb
    simp only [pushToks, List.foldl_cons]
    rw [if_neg hb]
    exact ihr _ (by simp)

theorem pushToks_sep (b t : Str) (rest : List Str) (ht : t ≠ []) :
    pushToks b (t :: rest) = (if b = [] then [] else b ++ [' ']) ++ pushToks t rest := by
  by_cases hb : b = []
  · simp only [hb, if_pos rfl, List.nil_append]
    simp [pushToks]
  · simp only [if_neg hb]
    simp only [pushToks, List.foldl_cons, if_neg hb]
    have h2 : b ++ ' ' :: t = (b ++ [' ']) ++ t := by simp
    rw [h2]
    exact pushToks_ne_nil_left (b ++ [' ']) rest t ht

theorem spliceBuf_pushToks (B p : Str) (ts : List Str) (hts : ∀ t ∈ ts, t ≠ []) :
    spliceBuf B (pushToks p ts) = pushToks (spliceBuf B p) ts := by
  cases ts with
  | nil => rfl
  | cons t rest =>
    have htne : t ≠ [] := hts t (by simp)
    by_cases hp : p = []
    · subst hp
      have hpt : pushToks [] (t :: rest) = pushToks t rest := by simp [pushToks]
      have hne : pushToks t rest ≠ [] := pushToks_nonempty rest t htne
      rw [hpt]
      unfold spliceBuf
      rw [if_neg hne, if_pos rfl]
      by_cases hB : B = []
      · rw [if_pos hB, hB]
        simp [pushToks]
      · rw [if_neg hB, pushToks_sep B t rest htne, if_neg hB]
        simp
    · have hne : pushToks p (t :: rest) ≠ [] := pushToks_nonempty _ p hp
      unfold spliceBuf
      rw [if_neg hne, if_neg hp]
      by_cases hB : B = []
      · rw [if_pos hB, if_pos hB]
      · rw [if_neg hB, if_neg hB]
        have h2 : B ++ ' ' :: p = (B ++ [' ']) ++ p := by simp
        rw [h2, pushToks_ne_nil_left (B ++ [' ']) (t :: rest) p hp]
        simp

/-! ## Pipeline decomposition -/

theorem openGroupsS_state (h : TextHandler) (s : HandleState) :
    openGroupsS h s =
      { s with pfx := s.pfx ++ groupSegs (h.groups.drop h.nOpenGroups),
               groups? := s.groups?.map (fun gs => gs ++ h.groups.drop h.nOpenGroups) } := by
  unfold openGroupsS
  generalize h.groups.drop h.nOpenGroups = l
  induction l generalizing s with
  | nil =>
    simp only [List.foldl_nil, groupSegs, List.map_nil, List.flatten_nil, List.append_nil]
    ext : 1
    · rfl
    · rfl
    · cases s.groups? <;> rfl
  | cons g rest ihr =>
    rw [List.foldl_cons, ihr]
    simp only [openGroupS, groupSegs, List.map_cons, List.flatten_cons]
    ext : 1
    · rfl
    · simp [List.append_assoc]
    · cases s.groups? <;> simp

theorem newStateGroups_open (h : TextHandler) :
    (newStateGroups h).map (fun gs => gs ++ h.groups.drop h.nOpenGroups) = fullGroups? h := by
  unfold newStateGroups fullGroups?
  split <;> simp

theorem splice_state (s : HandleState) (pre : Str) :
    (if pre = [] then s
     else if s.buf = [] then { s with buf := pre }
     else { s with buf := s.buf ++ ' ' :: pre }) =
      { s with buf := spliceBuf s.buf pre } := by
  unfold spliceBuf
  by_cases h1 : pre = []
  · simp [h1]
  · by_cases h2 : s.buf = [] <;> simp [h1, h2]

theorem key_string_step (s : HandleState) (key str : Str) :
    appendStringS (appendKeyS s key) str =
      { s with buf := pushToks s.buf [renderString (s.pfx ++ key) ++ '=' :: renderString str] } :=
  leaf_step s key (.str str)

theorem key_time_step (s : HandleState) (key : Str) (t : GoTime) :
    appendTimeS (appendKeyS s key) t =
      { s with buf := pushToks s.buf ([renderString (s.pfx ++ key) ++ '=' :: writeTimeRFC3339Millis [] t]) } :=
  leaf_step s key (.time t)

theorem key_source_step (s : HandleState) (key file : Str) (line : Nat) :
    appendSourceS (appendKeyS s key) file line =
      { s with buf := pushToks s.buf ([renderString (s.pfx ++ key) ++ '=' :: sourceRender file line]) } := by
  unfold appendSourceS sourceRender
  by_cases hq : needsQuotingS file
  · simp only [hq, if_true]
    exact leaf_step s key (.str (file ++ ':' :: natRepr line))
  · simp only [hq, if_false, Bool.false_eq_true]
    rw [appendKeyS_buf]
    simp only [appendStringS, renderString, hq, if_false, Bool.false_eq_true]
    simp only [pushToks, List.foldl_cons, List.foldl_nil]
    split <;> simp [List.append_assoc]

theorem builtinState_eq (fuel : Nat) (h : TextHandler) (r : Record) :
    builtinState fuel h r =
      { buf := pushToks [] (builtinToksF h.opts fuel r), pfx := [], groups? := none } := by
  unfold builtinState builtinToksF
  rcases hrep : h.opts.replaceAttr with _ | f <;>
    rcases htime : r.time? with _ | t <;>
      by_cases hsrc : (h.opts.addSource && !(r.file = [])) = true <;>
        simp [hrep, htime, hsrc, key_time_step, key_string_step, key_source_step,
          appendAttrF_toks, pushToks_app]

theorem lineF_decomp (fuel : Nat) (h : TextHandler) (r : Record) :
    h.lineF fuel r =
      pushToks (spliceBuf (pushToks [] (builtinToksF h.opts fuel r)) h.preformattedAttrs)
        (recToksF fuel h r) ++ ['\n'] := by
  unfold TextHandler.lineF appendNonBuiltInsF
  rw [builtinState_eq]
  dsimp only
  rw [splice_state, openGroupsS_state, foldl_appendAttrF_toks]
  simp only [newStateGroups_open, recToksF, fullPfx, List.nil_append]

theorem withAttrsF_eq (fuel : Nat) (h : TextHandler) (as : List Attr) :
    h.withAttrsF fuel as =
      { h with
        preformattedAttrs := pushToks h.preformattedAttrs
          (attrsToksF h.opts.replaceAttr fuel (fullPfx h) (fullGroups? h) as),
        groupPfx := fullPfx h,
        nOpenGroups := h.groups.length } := by
  unfold TextHandler.withAttrsF
  dsimp only
  rw [openGroupsS_state, foldl_appendAttrF_toks]
  simp only [newStateGroups_open, fullPfx]

theorem attrsToksF_append (rep : Option RepFn) (fuel : Nat) (pfx : Str)
    (gs? : Option (List Str)) (as bs : List Attr) :
    attrsToksF rep fuel pfx gs? (as ++ bs) =
      attrsToksF rep fuel pfx gs? as ++ attrsToksF rep fuel pfx gs? bs := by
  simp [attrsToksF]

theorem builtinToksF_attrs (o : Options) (fuel : Nat) (r : Record) (x : List Attr) :
    builtinToksF o fuel { r with attrs := x } = builtinToksF o fuel r := by
  cases r; rfl

theorem recToksF_record (fuel : Nat) (h : TextHandler) (r : Record) (x : List Attr) :
    recToksF fuel h { r with attrs := x } =
      attrsToksF h.opts.replaceAttr fuel (fullPfx h) (fullGroups? h) x := by
  cases r; rfl

/-- C1: pre-attaching attributes and then handling a record writes the
very same bytes (and sink result) as handling the record with those
attributes prepended to its own, at every depth budget; and the built-in
fields are computed from the record and options alone, unaffected by the
pre-attached attribute cache. -/
theorem claim_C1_withAttrs_refines_prepend (fuel : Nat) (h : TextHandler) (as : List Attr)
    (r : Record) (w : Sink) :
    TextHandler.handleF fuel (h.withAttrsF fuel as) w r =
      TextHandler.handleF fuel h w { r with attrs := as ++ r.attrs } ∧
    builtinToksF (h.withAttrsF fuel as).opts fuel r = builtinToksF h.opts fuel r := by
  have hopts : (h.withAttrsF fuel as).opts = h.opts := by rw [withAttrsF_eq]
  have hpfx : fullPfx (h.withAttrsF fuel as) = fullPfx h := by
    rw [withAttrsF_eq]
    simp [fullPfx, groupSegs]
  have hgs : fullGroups? (h.withAttrsF fuel as) = fullGroups? h := by
    rw [withAttrsF_eq]
    simp only [fullGroups?]
    split <;> simp [List.take_append_drop]
  have hpre : (h.withAttrsF fuel as).preformattedAttrs =
      pushToks h.preformattedAttrs
        (attrsToksF h.opts.replaceAttr fuel (fullPfx h) (fullGroups? h) as) := by
    rw [withAttrsF_eq]
  have hrec : recToksF fuel (h.withAttrsF fuel as) r =
      attrsToksF h.opts.replaceAttr fuel (fullPfx h) (fullGroups? h) r.attrs := by
    unfold recToksF
    rw [hpfx, hgs, hopts]
  refine ⟨?_, by rw [hopts]⟩
  unfold TextHandler.handleF
  have hline : TextHandler.lineF fuel (h.withAttrsF fuel as) r =
      TextHandler.lineF fuel h { r with attrs := as ++ r.attrs } := by
    rw [lineF_decomp, lineF_decomp]
    congr 1
    rw [hopts, hpre, hrec, spliceBuf_pushToks _ _ _ (attrsToksF_ne_nil _ _ _ _ _),
      pushToks_app, builtinToksF_attrs h.opts fuel r (as ++ r.attrs),
      recToksF_record fuel h r (as ++ r.attrs), attrsToksF_append]
  rw [hline]

/-! ## Reachable handlers carry well-formed preformatted bytes -/

theorem withGroup_pre (h : TextHandler) (name : Str) :
    (h.withGroup name).preformattedAttrs = h.preformattedAttrs := by
  unfold TextHandler.withGroup
  split <;> rfl

theorem reached_preWF {h : TextHandler} (hr : Reached h) : PreWF h := by
  induction hr with
  | base o => exact ⟨[], by simp, rfl⟩
  | withAttrs fuel as h0 hh ih =>
    obtain ⟨ts, hne, hpre⟩ := ih
    refine ⟨ts ++ attrsToksF h0.opts.replaceAttr fuel (fullPfx h0) (fullGroups? h0) as, ?_, ?_⟩
    · intro t ht
      rcases List.mem_append.mp ht with h1 | h2
      · exact hne t h1
      · exact attrsToksF_ne_nil _ _ _ _ _ t h2
    · rw [withAttrsF_eq]
      show pushToks h0.preformattedAttrs _ = _
      rw [hpre]
      unfold joinSp
      rw [pushToks_app]
  | withGroup name h0 hh ih =>
    obtain ⟨ts, hne, hpre⟩ := ih
    exact ⟨ts, hne, by rw [withGroup_pre]; exact hpre⟩

theorem builtinToksF_ne_nil (o : Options) (fuel : Nat) (r : Record) :
    ∀ t ∈ builtinToksF o fuel r, t ≠ [] := by
  unfold builtinToksF
  rcases o.replaceAttr with _ | f <;>
    rcases r.time? with _ | tt <;>
      by_cases hsrc : (o.addSource && !(r.file = [])) = true <;>
        simp only [hsrc, if_true, if_false] <;>
          intro t ht <;>
            simp only [List.mem_append, List.mem_singleton, List.not_mem_nil, List.nil_append,
              List.append_nil, false_or, or_false] at ht <;>
              (repeat' rcases ht with ht | ht) <;>
                first
                  | (subst ht; simp)
                  | exact attrToksF_ne_nil _ _ _ _ _ t ht
                  | simp

theorem joinSp_eq_intercalate : ∀ ts : List Str, (∀ t ∈ ts, t ≠ []) →
    joinSp ts = List.intercalate [' '] ts := by
  intro ts
  induction ts with
  | nil => intro _; rfl
  | cons t rest ih =>
    intro hne
    have ht : t ≠ [] := hne t (by simp)
    cases rest with
    | nil => simp [joinSp, pushToks, List.intercalate]
    | cons t2 r2 =>
      have h2 : joinSp (t2 :: r2) = List.intercalate [' '] (t2 :: r2) :=
        ih (fun x hx => hne x (by simp [hx]))
      have hstep : joinSp (t :: t2 :: r2) = t ++ ' ' :: joinSp (t2 :: r2) := by
        have e1 : joinSp (t :: t2 :: r2) = pushToks t (t2 :: r2) := by
          simp [joinSp, pushToks]
        rw [e1, pushToks_sep t t2 r2 (hne t2 (by simp)), if_neg ht]
        simp [joinSp, pushToks, List.append_assoc]
      rw [hstep, h2]
      rw [List.intercalate, List.intercalate, List.intersperse_cons_cons]
      simp

/-- C8: every line a reachable handler writes is a list of non-empty
fields joined by exactly one space each, with no space before the first
field and a single newline after the last; the fields are precisely the
built-in fields, then the preformatted fields, then the record's own
fields, and when every field is elided the line is the newline alone. -/
theorem claim_C8_line_shape (fuel : Nat) (h : TextHandler) (r : Record)
    (hr : Reached h) :
    ∃ (toks preTs : List Str),
      h.preformattedAttrs = joinSp preTs ∧
      toks = builtinToksF h.opts fuel r ++ preTs ++ recToksF fuel h r ∧
      (∀ t ∈ toks, t ≠ []) ∧
      h.lineF fuel r = List.intercalate [' '] toks ++ ['\n'] := by
  obtain ⟨ts, hne, hpre⟩ := reached_preWF hr
  have hall : ∀ t ∈ builtinToksF h.opts fuel r ++ ts ++ recToksF fuel h r, t ≠ [] := by
    intro t ht
    rcases List.mem_append.mp ht with h1 | h2
    · rcases List.mem_append.mp h1 with h3 | h4
      · exact builtinToksF_ne_nil _ _ _ t h3
      · exact hne t h4
    · exact attrsToksF_ne_nil _ _ _ _ _ t h2
  refine ⟨_, ts, hpre, rfl, hall, ?_⟩
  rw [lineF_decomp]
  have e1 : spliceBuf (pushToks [] (builtinToksF h.opts fuel r)) h.preformattedAttrs =
      pushToks (pushToks [] (builtinToksF h.opts fuel r)) ts := by
    rw [hpre]
    unfold joinSp
    rw [spliceBuf_pushToks _ _ _ hne]
    rfl
  rw [e1, pushToks_app, pushToks_app, ← List.append_assoc]
  rw [show pushToks [] (builtinToksF h.opts fuel r ++ ts ++ recToksF fuel h r) =
      joinSp (builtinToksF h.opts fuel r ++ ts ++ recToksF fuel h r) from rfl]
  rw [joinSp_eq_intercalate _ hall]

/-- C8 witness at a concrete reachable handler and record. -/
theorem claim_C8_line_shape_witness :
    ∃ (toks preTs : List Str),
      (newHandler ⟨none, false, none⟩).preformattedAttrs = joinSp preTs ∧
      toks = builtinToksF (newHandler ⟨none, false, none⟩).opts 1
          ⟨none, 0, s2l "m", [], 0, [(s2l "a", .int64 1)]⟩ ++ preTs ++
        recToksF 1 (newHandler ⟨none, false, none⟩)
          ⟨none, 0, s2l "m", [], 0, [(s2l "a", .int64 1)]⟩ ∧
      (∀ t ∈ toks, t ≠ []) ∧
      (newHandler ⟨none, false, none⟩).lineF 1
          ⟨none, 0, s2l "m", [], 0, [(s2l "a", .int64 1)]⟩ =
        List.intercalate [' '] toks ++ ['\n'] :=
  claim_C8_line_shape 1 (newHandler ⟨none, false, none⟩)
    ⟨none, 0, s2l "m", [], 0, [(s2l "a", .int64 1)]⟩ (Reached.base _)

/-- C9: appendAttr leaves the key prefix and the open-group name list
exactly as they were before the call, for every attribute, state, hook
and depth budget; and closeGroup removes exactly what openGroup added
(the name plus one separator byte), so sibling attributes see an
unchanged prefix. -/
theorem claim_C9_prefix_restored (rep : Option RepFn) (fuel : Nat) (s : HandleState)
    (a : Attr) (name : Str) :
    (appendAttrF rep fuel s a).pfx = s.pfx ∧
    (appendAttrF rep fuel s a).groups? = s.groups? ∧
    closeGroupS (openGroupS s name) name = s := by
  rw [appendAttrF_toks]
  exact ⟨rfl, rfl, closeGroupS_openGroupS s name s.buf⟩

/-- C10: WithGroup with an empty name returns the receiver itself: no
field changes, no prefix segment, no group-list entry (and a non-empty
name only appends to the group list). -/
theorem claim_C10_withGroup_empty (h : TextHandler) (name : Str) :
    h.withGroup [] = h ∧
      (name ≠ [] → h.withGroup name =
        { h with groups := h.groups ++ [name] }) := by
  constructor
  · rfl
  · intro hn
    unfold TextHandler.withGroup
    rw [if_neg hn]

/-- C10 witness. -/
theorem claim_C10_withGroup_empty_witness :
    (newHandler ⟨none, false, none⟩).withGroup [] = newHandler ⟨none, false, none⟩ ∧
      (s2l "g" ≠ [] → (newHandler ⟨none, false, none⟩).withGroup (s2l "g") =
        { newHandler ⟨none, false, none⟩ with
            groups := (newHandler ⟨none, false, none⟩).groups ++ [s2l "g"] }) :=
  claim_C10_withGroup_empty (newHandler ⟨none, false, none⟩) (s2l "g")

/-- C7: every Handle call performs exactly one Write on the sink, whose
payload is the assembled line, and returns exactly that write's
response as its own result; no retry, no swallowed failure. -/
theorem claim_C7_single_write (fuel : Nat) (h : TextHandler) (w : Sink) (r : Record) :
    (h.handleF fuel w r).1.written = w.written ++ [h.lineF fuel r] ∧
    (h.handleF fuel w r).1.written.length = w.written.length + 1 ∧
    (h.handleF fuel w r).2 = w.resp (h.lineF fuel r) := by
  refine ⟨rfl, ?_, rfl⟩
  simp [TextHandler.handleF, Sink.write]

/-- C4: an attribute with an empty key and a non-group value produces no
output and no state change; a group-valued attribute with an empty key
emits its children at the current prefix (no new path segment); and a
group with no children is elided entirely, whatever its key, with no
prefix side effects. -/
theorem claim_C4_empty_key_and_groups :
    (∀ (rep : Option RepFn) (fuel : Nat) (s : HandleState) (v : Value),
      v.isGroup = false → appendAttrF rep fuel s ([], v) = s) ∧
    (∀ (rep : Option RepFn) (n : Nat) (s : HandleState) (attrs : List (Str × Value)),
      appendAttrF rep (n + 1) s ([], .group attrs) =
        List.foldl (appendAttrF rep n) s attrs) ∧
    (∀ (rep : Option RepFn) (fuel : Nat) (s : HandleState) (key : Str),
      appendAttrF rep fuel s (key, .group []) = s) := by
  refine ⟨?_, ?_, ?_⟩
  · intro rep fuel s v hv
    cases fuel with
    | zero => rfl
    | succ n =>
      rcases rep with _ | f <;>
        · rw [appendAttrF]
          simp [hv]
  · intro rep n s attrs
    rcases rep with _ | f <;>
      rw [appendAttrF] <;>
      · simp only [Value.isGroup, Bool.not_true, Bool.and_false, if_false, if_true,
          Bool.false_eq_true, appendAttrTail]
        by_cases he : attrs.isEmpty
        · rw [List.isEmpty_iff] at he
          subst he
          simp
        · simp [he]
  · intro rep fuel s key
    cases fuel with
    | zero => rfl
    | succ n =>
      rcases rep with _ | f <;>
        · rw [appendAttrF]
          simp [Value.isGroup, appendAttrTail]

/-- C4 witness: concrete instances of all three parts. -/
theorem claim_C4_empty_key_and_groups_witness :
    appendAttrF none 3 ⟨[], [], none⟩ ([], .int64 7) = ⟨[], [], none⟩ ∧
    appendAttrF none 3 ⟨[], [], none⟩ ([], .group [(s2l "a", .int64 1)]) =
      List.foldl (appendAttrF none 2) ⟨[], [], none⟩ [(s2l "a", .int64 1)] ∧
    appendAttrF none 3 ⟨[], [], none⟩ (s2l "g", .group []) = ⟨[], [], none⟩ :=
  ⟨claim_C4_empty_key_and_groups.1 none 3 ⟨[], [], none⟩ (.int64 7) rfl,
   claim_C4_empty_key_and_groups.2.1 none 2 ⟨[], [], none⟩ [(s2l "a", .int64 1)],
   claim_C4_empty_key_and_groups.2.2 none 3 ⟨[], [], none⟩ (s2l "g")⟩

set_option maxRecDepth 8000 in
/-- C3: the fast time formatter appends exactly the spec's RFC3339
millisecond-precision rendering: YYYY-MM-DDTHH:MM:SS.mmm then Z for a
zero offset or a signed HH:MM zone from the whole-minute offset, for
every time value including negative offsets; the sub-millisecond
component is truncated (the output depends only on ns / 10^6, never
rounding up); concrete negative-offset and UTC renderings included. -/
theorem claim_C3_time_rfc3339 :
    (∀ (b : Str) (t : GoTime), writeTimeRFC3339Millis b t = b ++ rfc3339MillisSpec t) ∧
    (∀ (b : Str) (t : GoTime) (ns2 : Nat), t.ns / 1000000 = ns2 / 1000000 →
      writeTimeRFC3339Millis b { t with ns := ns2 } = writeTimeRFC3339Millis b t) ∧
    writeTimeRFC3339Millis [] ⟨2000, 1, 2, 3, 4, 5, 6007008, -18000⟩ =
      s2l "2000-01-02T03:04:05.006-05:00" ∧
    writeTimeRFC3339Millis [] ⟨2000, 1, 2, 3, 4, 5, 0, 0⟩ =
      s2l "2000-01-02T03:04:05.000Z" := by
  refine ⟨?_, ?_, by decide, by decide⟩
  · intro b t
    by_cases h : t.offsetSeconds = 0
    · simp [writeTimeRFC3339Millis, rfc3339MillisSpec, h, List.append_assoc]
    · simp [writeTimeRFC3339Millis, rfc3339MillisSpec, h, List.append_assoc]
      split <;> simp
  · intro b t ns2 hns
    by_cases h : t.offsetSeconds = 0 <;>
      simp [writeTimeRFC3339Millis, h, ← hns]

/-- C3 witness: adding sub-millisecond nanoseconds does not change the
rendered time (truncation, not rounding). -/
theorem claim_C3_time_rfc3339_witness :
    writeTimeRFC3339Millis [] { (⟨2000, 1, 2, 3, 4, 5, 6007008, 0⟩ : GoTime) with
        ns := 6999999 } =
      writeTimeRFC3339Millis [] ⟨2000, 1, 2, 3, 4, 5, 6007008, 0⟩ :=
  claim_C3_time_rfc3339.2.1 [] ⟨2000, 1, 2, 3, 4, 5, 6007008, 0⟩ 6999999 (by decide)

theorem attrToks_error_marker (fuel : Nat) (pfx : Str) (gs? : Option (List Str))
    (k e : Str) :
    attrToksF none fuel pfx gs? (k, .anyTextM (.error e)) =
      attrToksF none fuel pfx gs? (k, .str (s2l "!ERROR:" ++ e)) := by
  cases fuel with
  | zero => rfl
  | succ n =>
    rw [attrToksF, attrToksF]
    simp [Value.isGroup, attrToksTail, renderValue]

/-- C6: a failing TextMarshaler value is rendered as the inline marker
string "!ERROR:" plus the message (written through the ordinary string
renderer), the rest of the record is emitted exactly as if that one
value had been the marker string, the line is still produced, and the
call's result is exactly the sink's response to the single write. -/
theorem claim_C6_error_marker (fuel : Nat) (h : TextHandler) (w : Sink) (r : Record)
    (as1 as2 : List Attr) (k e : Str) (s : HandleState)
    (hrep : h.opts.replaceAttr = none) :
    appendValueS s (.anyTextM (.error e)) =
      { s with buf := s.buf ++ renderString (s2l "!ERROR:" ++ e) } ∧
    h.handleF fuel w { r with attrs := as1 ++ (k, .anyTextM (.error e)) :: as2 } =
      h.handleF fuel w { r with attrs := as1 ++ (k, .str (s2l "!ERROR:" ++ e)) :: as2 } ∧
    (h.handleF fuel w { r with attrs := as1 ++ (k, .anyTextM (.error e)) :: as2 }).2 =
      w.resp (h.lineF fuel { r with attrs := as1 ++ (k, .anyTextM (.error e)) :: as2 }) := by
  refine ⟨rfl, ?_, rfl⟩
  unfold TextHandler.handleF
  congr 1
  rw [lineF_decomp, lineF_decomp,
    builtinToksF_attrs h.opts fuel r (as1 ++ (k, .anyTextM (.error e)) :: as2),
    builtinToksF_attrs h.opts fuel r (as1 ++ (k, .str (s2l "!ERROR:" ++ e)) :: as2),
    recToksF_record, recToksF_record, hrep]
  congr 1
  simp only [attrsToksF, List.map_append, List.map_cons, List.flatten_append,
    List.flatten_cons]
  rw [attrToks_error_marker]

/-- C6 witness at a concrete handler, sink, record and state. -/
theorem claim_C6_error_marker_witness :
    appendValueS state0 (.anyTextM (.error (s2l "boom"))) =
      { state0 with buf := state0.buf ++ renderString (s2l "!ERROR:" ++ s2l "boom") } ∧
    (newHandler optsPlain).handleF 1 emptySink
        { rec0 with attrs := [] ++ (s2l "t", .anyTextM (.error (s2l "boom"))) :: [] } =
      (newHandler optsPlain).handleF 1 emptySink
        { rec0 with attrs := [] ++ (s2l "t", .str (s2l "!ERROR:" ++ s2l "boom")) :: [] } ∧
    ((newHandler optsPlain).handleF 1 emptySink
        { rec0 with attrs := [] ++ (s2l "t", .anyTextM (.error (s2l "boom"))) :: [] }).2 =
      emptySink.resp ((newHandler optsPlain).lineF 1
        { rec0 with attrs := [] ++ (s2l "t", .anyTextM (.error (s2l "boom"))) :: [] }) :=
  claim_C6_error_marker 1 (newHandler optsPlain) emptySink rec0 [] []
    (s2l "t") (s2l "boom") state0 rfl

/-- Model validation against the repository's own test expectation
("basic"-style case of the handler test): a record with the test time,
level INFO and one int attribute renders to the exact line the test
demands. -/
theorem model_matches_repo_test :
    TextHandler.lineF 2 (newHandler optsPlain)
        ⟨some ⟨2000, 1, 2, 3, 4, 5, 0, 0⟩, 0, s2l "a message", [], 0,
          [(s2l "a", .int64 1)]⟩ =
      s2l "time=2000-01-02T03:04:05.000Z level=INFO msg=\"a message\" a=1" ++ ['\n'] := by
  decide

/-- C5, counterexample to the claim as stated: with the observing hook
(which writes the group list it is given into the value), a handler
whose single WithGroup group "s" has been baked into the preformatted
prefix by a WithAttrs call still passes ["s"] to the hook for a record
attribute — the rendered value is "s".  Under the claim's "open-group
list reflects only record-level group nesting (excluding groups already
baked into the preformatted prefix)" the hook would observe the empty
list and the line would end in "s.a=" instead. -/
theorem claim_C5_counterexample :
    TextHandler.lineF 1 (((newHandler obsOpts).withGroup (s2l "s")).withAttrsF 1 [])
        { rec0 with attrs := [(s2l "a", .str (s2l "x"))] } =
      s2l "level= msg= s.a=s" ++ ['\n'] ∧
    TextHandler.lineF 1 (((newHandler obsOpts).withGroup (s2l "s")).withAttrsF 1 [])
        { rec0 with attrs := [(s2l "a", .str (s2l "x"))] } ≠
      s2l "level= msg= s.a=" ++ ['\n'] := by
  constructor <;> decide

theorem attrToksTail_gnone_congr (f1 f2 : RepFn) (n : Nat)
    (ih : ∀ (pfx : Str) (a : Attr),
      attrToksF (some f1) n pfx none a = attrToksF (some f2) n pfx none a)
    (pfx : Str) (key : Str) (v : Value) :
    attrToksTail (attrToksF (some f1) n) pfx none key v =
      attrToksTail (attrToksF (some f2) n) pfx none key v := by
  cases v
  case group attrs =>
    simp only [attrToksTail, Option.map_none']
    split
    · rfl
    · split
      · congr 1
        exact List.map_congr_left (fun a _ => ih pfx a)
      · congr 1
        exact List.map_congr_left (fun a _ => ih (pfx ++ key ++ ['.']) a)
  all_goals rfl

theorem attrToksF_gnone_congr (f1 f2 : RepFn) (hf : ∀ a, f1 [] a = f2 [] a) :
    ∀ (fuel : Nat) (pfx : Str) (a : Attr),
      attrToksF (some f1) fuel pfx none a = attrToksF (some f2) fuel pfx none a := by
  intro fuel
  induction fuel with
  | zero => intro _ _; rfl
  | succ n ih =>
    intro pfx a
    rw [attrToksF, attrToksF]
    split
    · rfl
    · split
      · exact attrToksTail_gnone_congr f1 f2 n ih pfx a.1 a.2
      · simp only [Option.getD_none]
        rw [hf (a.1, a.2)]
        split
        · rfl
        · exact attrToksTail_gnone_congr f1 f2 n ih pfx _ _

/-- C5 (amended): whenever a replace hook is configured it is invoked
for every emitted leaf attribute, and (i) the built-in fields (time,
level, source, msg) are processed with a nil group list, so prior
WithGroup calls cannot change them and only the hook's behavior at the
empty group list matters for them; (ii) for a record attribute the hook
observes ALL handler groups — including those already baked into the
preformatted prefix, which newHandleState seeds back in — followed by
record-level nesting (shown with the observing hook on an arbitrary
handler state); and (iii) a hook result with an empty key (for a
non-group input value) deletes that attribute from the output. -/
theorem claim_C5_amended :
    (∀ (h : TextHandler) (g : Str) (fuel : Nat) (r : Record),
      builtinToksF (h.withGroup g).opts fuel r = builtinToksF h.opts fuel r) ∧
    (∀ (ml : Option Int) (asrc : Bool) (f1 f2 : RepFn) (fuel : Nat) (r : Record),
      (∀ a, f1 [] a = f2 [] a) →
      builtinToksF ⟨ml, asrc, some f1⟩ fuel r = builtinToksF ⟨ml, asrc, some f2⟩ fuel r) ∧
    (∀ (fuel : Nat) (ml : Option Int) (asrc : Bool) (pre gp : Str) (gs : List Str)
        (n : Nat) (k v : Str), k ≠ [] →
      recToksF (fuel + 1) ⟨⟨ml, asrc, some obsHook⟩, pre, gp, gs, n⟩
          { rec0 with attrs := [(k, .str v)] } =
        [renderString ((gp ++ groupSegs (gs.drop n)) ++ k) ++ '=' ::
          renderString gs.flatten]) ∧
    (∀ (f : RepFn) (fuel : Nat) (s : HandleState) (k : Str) (v : Value),
      v.isGroup = false → (f (s.groups?.getD []) (k, v)).1 = [] →
      appendAttrF (some f) (fuel + 1) s (k, v) = s) := by
  refine ⟨?_, ?_, ?_, ?_⟩
  · intro h g fuel r
    unfold TextHandler.withGroup
    split <;> rfl
  · intro ml asrc f1 f2 fuel r hf
    unfold builtinToksF
    rcases r.time? with _ | t <;>
      by_cases hsrc : (asrc && !(r.file = [])) = true <;>
        simp [hsrc, attrToksF_gnone_congr f1 f2 hf fuel]
  · intro fuel ml asrc pre gp gs n k v hk
    haveI : Nonempty (List (Str × Value)) := ⟨[]⟩
    haveI : Nonempty Value := ⟨.str []⟩
    rw [recToksF_record]
    simp only [attrsToksF, List.map_cons, List.map_nil, List.flatten_cons,
      List.flatten_nil, List.append_nil]
    simp only [attrToksF]
    simp [fullPfx, fullGroups?, hk, Value.isGroup, Value.resolve, obsHook,
      attrToksTail, renderValue, List.take_append_drop]
  · intro f fuel s k v hv hdel
    rw [appendAttrF]
    by_cases hk : k = []
    · simp [hk, hv]
    · simp [hk, hv, hdel]

/-- C5 amended witness: concrete instances of all four parts. -/
theorem claim_C5_amended_witness :
    builtinToksF ((newHandler optsPlain).withGroup (s2l "g")).opts 1 rec0 =
      builtinToksF (newHandler optsPlain).opts 1 rec0 ∧
    builtinToksF ⟨none, false, some obsHook⟩ 1 rec0 =
      builtinToksF ⟨none, false, some (fun _ a => obsHook [] a)⟩ 1 rec0 ∧
    recToksF 1 ⟨⟨none, false, some obsHook⟩, [], s2l "s.", [s2l "s"], 1⟩
        { rec0 with attrs := [(s2l "a", .str (s2l "x"))] } =
      [renderString ((s2l "s." ++ groupSegs ([s2l "s"].drop 1)) ++ s2l "a") ++ '=' ::
        renderString ([s2l "s"]).flatten] ∧
    appendAttrF (some (fun _ _ => ([], .str []))) 1 state0 (s2l "a", .int64 1) = state0 :=
  ⟨claim_C5_amended.1 (newHandler optsPlain) (s2l "g") 1 rec0,
   claim_C5_amended.2.1 none false obsHook (fun _ a => obsHook [] a) 1 rec0 (fun a => rfl),
   claim_C5_amended.2.2.1 0 none false [] (s2l "s.") [s2l "s"] 1 (s2l "a") (s2l "x")
     (by decide),
   claim_C5_amended.2.2.2 (fun _ _ => ([], .str [])) 0 state0 (s2l "a") (.int64 1) rfl rfl⟩
